import Mathlib

/-!
# Verification of the tree-cache / status-reconciliation engine

Shallow embedding of the file-picker core: the tree cache and status merge
(`updateCachedFilesWithStatus`), the two status pollers (`pollFolderStatus`
and the knowledge-base status hook), the error-toast deduplication state
machine, selection propagation (`handleRowSelection`), the deletion planner
(`deleteSelectedFiles`) and batch executor, and the tree materializer
(`buildFileTree` / `flattenTree`).
-/

namespace StackAI

/-- Settlement status of a knowledge-base resource (`FileItem["status"]`).
The `absent` case (no knowledge-base record yet / `undefined` in the source)
is modelled by `Option Status` being `none` at use sites. -/
inductive Status where
  | indexed
  | pending
  | pending_delete
  | error
  | unknown
deriving DecidableEq, Repr

/-- A drive entry as cached by the tree component: stable `id`, full
hierarchical path `name`, `type` (`"file"` or `"directory"`), and an
optional knowledge-base settlement status (`none` = no record yet). -/
structure FileItem where
  id : String
  name : String
  type : String
  status : Option Status
deriving DecidableEq, Repr

/-- A status map as produced by a scoped knowledge-base status fetch:
associations from resource id to status (JS `Map<string, string>`). -/
abbrev StatusMap := List (String × Status)

/-- `Map.get` on a status map. -/
def getSM : StatusMap → String → Option Status
  | [], _ => none
  | (k, v) :: rest, id => if k = id then some v else getSM rest id

/-- The query cache restricted to `["drive-files", folderId]` entries:
associations from folder id to its fetched fragment (list of children). -/
abbrev Cache := List (String × List FileItem)

/-- `queryClient.getQueryData(["drive-files", folderId])`. -/
def getC : Cache → String → Option (List FileItem)
  | [], _ => none
  | (k, v) :: rest, id => if k = id then some v else getC rest id

/-- `queryClient.setQueryData(["drive-files", folderId], ...)`: the newest
entry shadows older ones. -/
def setC (id : String) (v : List FileItem) (c : Cache) : Cache :=
  (id, v) :: c

/-- Models JS `s.startsWith(pre)`: `pre` is a prefix of `s`. -/
def strStartsWith (s pre : String) : Bool :=
  pre.data.isPrefixOf s.data

/-! ## Status merge (`updateCachedFilesWithStatus`, useFileTree lines 88-108) -/

/-- One node's status update during a merge:
`status: (kbStatusMap.get(file.id) as FileItem["status"]) || file.status`.
Every `Status` value is a non-empty (truthy) string in the source, so the
JS `||` falls through to `file.status` exactly on a map miss. -/
def mergeFile (m : StatusMap) (f : FileItem) : FileItem :=
  { f with status := match getSM m f.id with
                     | some s => some s
                     | none => f.status }

/-- Result of `updateCachedFilesWithStatus`: the updated cache plus the
`{ updatedFiles, hasPending, hasErrors }` record the source returns. -/
structure MergeResult where
  cache : Cache
  updatedFiles : List FileItem
  hasPending : Bool
  hasErrors : Bool
deriving Repr

/-- `updateCachedFilesWithStatus(folderId, kbStatusMap)`: read the cached
fragment; if absent return `{updatedFiles: [], hasPending: false,
hasErrors: false}` without touching the cache; otherwise merge the status
map into every node of the fragment, write the fragment back, and report
whether any file is still `pending` and whether any file is `error`. -/
def updateCachedFilesWithStatus (cache : Cache) (folderId : String)
    (m : StatusMap) : MergeResult :=
  match getC cache folderId with
  | none => ⟨cache, [], false, false⟩
  | some data =>
    let updatedFiles := data.map (mergeFile m)
    let hasPending := updatedFiles.any fun f =>
      decide (f.type = "file") && decide (f.status = some Status.pending)
    let hasErrors := updatedFiles.any fun f =>
      decide (f.type = "file") && decide (f.status = some Status.error)
    ⟨setC folderId updatedFiles cache, updatedFiles, hasPending, hasErrors⟩

/-! ## Poll termination decisions (C1, C3) -/

/-- `MAX_POLL_DURATION = 2 * 60 * 1000` (milliseconds), from
useKnowledgeBaseStatus. -/
def MAX_POLL_DURATION : Nat := 2 * 60 * 1000

/-- The reschedule condition of `pollFolderStatus` (useFileTree lines
115-119): `stillPending = Array.from(freshStatus.values()).some(s => s ===
"pending")`; the poll chain continues exactly when this holds. -/
def pollFolderContinues (m : StatusMap) : Bool :=
  (m.map Prod.snd).any fun s => decide (s = Status.pending)

/-- `pollFolderStatus` consults no clock: there is no timeout branch in its
body.  The elapsed-time argument records wall-clock time since the scope
started polling so that timing claims can be stated; it is unused, exactly
as in the source. -/
def pollFolderContinuesAt (_elapsed : Nat) (m : StatusMap) : Bool :=
  pollFolderContinues m

/-- The shouldPoll decision of the useKnowledgeBaseStatus effect on a tick
where fetched data is available: stop on an empty resource list, stop when
no resource is a file, stop when elapsed time exceeds `MAX_POLL_DURATION`,
stop when no file is `pending` or `pending_delete`; otherwise continue. -/
def rootPollContinues (elapsed : Nat) (resources : List FileItem) : Bool :=
  if resources = [] then false
  else
    let files := resources.filter fun f => decide (f.type = "file")
    if files = [] then false
    else if elapsed > MAX_POLL_DURATION then false
    else files.any fun f =>
      decide (f.status = some Status.pending)
      || decide (f.status = some Status.pending_delete)

/-! ## Notification state machine (C4, C10)

The toast-deduplication behaviour lives in three places: the
`errorToastShown` guard set of useFileTree (checked in `pollFolderStatus`
and in `toggleFolder`), the `hasShownErrorToast` flag of
useKnowledgeBaseStatus, and `collapseAllFolders` which resets the
useFileTree sets.  We model the shared state and the event-driven steps;
fetch results (drive fragments, status maps, the root resource list,
elapsed wall-clock time) are carried by the events as external inputs. -/

/-- A status scope: the root knowledge-base poll, or one folder's scope. -/
inductive Scope where
  | root
  | folder (folderId : String)
deriving DecidableEq, Repr

/-- Combined mutable state of useFileTree and useKnowledgeBaseStatus, plus a
log of emitted failure notifications (`emissions`, newest last). -/
structure PState where
  cache : Cache
  expandedFolders : List String
  loadingFolders : List String
  errorToastShown : List String
  hasShownErrorToast : Bool
  rootShouldPoll : Bool
  emissions : List Scope
deriving Repr

/-- Initial state: all sets empty, no toast shown, polling enabled. -/
def initState : PState :=
  ⟨[], [], [], [], false, true, []⟩

/-- External events driving the machine.  `rootTick` is one run of the
useKnowledgeBaseStatus effect with fetched data `resources` at `elapsed`
milliseconds since polling started; `folderPoll` is one `pollFolderStatus`
call whose fresh scoped fetch returned `m`; `toggle` is one `toggleFolder`
call whose drive fetch returned `driveFiles` and whose status fetch
returned `m` (`kb` records whether a knowledge base is active). -/
inductive Event where
  | rootTick (resources : List FileItem) (elapsed : Nat)
  | folderPoll (folderId : String) (m : StatusMap)
  | toggle (folderId : String) (driveFiles : List FileItem) (m : StatusMap) (kb : Bool)
  | collapseAll
deriving DecidableEq, Repr

/-- The error-toast block of useKnowledgeBaseStatus (lines 59-70): emit the
`kb-error-toast` once, guarded by `hasShownErrorToast`. -/
def noteRoot (st : PState) (errNonempty : Bool) : PState :=
  if errNonempty ∧ st.hasShownErrorToast = false then
    { st with hasShownErrorToast := true,
              emissions := st.emissions ++ [Scope.root] }
  else st

/-- The folder error-toast block, duplicated verbatim in `pollFolderStatus`
(lines 125-134) and `toggleFolder` (lines 173-182): emit
`folder-error-${folderId}` once, guarded by the `errorToastShown` set. -/
def noteFolder (st : PState) (folderId : String) (hasErrors : Bool) : PState :=
  if hasErrors = true ∧ folderId ∉ st.errorToastShown then
    { st with errorToastShown := folderId :: st.errorToastShown,
              emissions := st.emissions ++ [Scope.folder folderId] }
  else st

/-- One step of the machine. -/
def step (st : PState) : Event → PState
  | .rootTick resources elapsed =>
    if resources = [] then { st with rootShouldPoll := false }
    else
      let files := resources.filter fun f => decide (f.type = "file")
      if files = [] then { st with rootShouldPoll := false }
      else
        let errorFiles := files.filter fun f => decide (f.status = some Status.error)
        let st1 := noteRoot st (decide (0 < errorFiles.length))
        let hasUnsettled := files.any fun f =>
          decide (f.status = some Status.pending)
          || decide (f.status = some Status.pending_delete)
        if elapsed > MAX_POLL_DURATION then { st1 with rootShouldPoll := false }
        else if hasUnsettled = false then { st1 with rootShouldPoll := false }
        else st1
  | .folderPoll folderId m =>
    if pollFolderContinues m then st
    else
      let r := updateCachedFilesWithStatus st.cache folderId m
      noteFolder { st with cache := r.cache } folderId r.hasErrors
  | .toggle folderId driveFiles m kb =>
    if folderId ∈ st.expandedFolders then
      { st with expandedFolders := st.expandedFolders.erase folderId }
    else
      let st1 := { st with cache := setC folderId driveFiles st.cache }
      let st2 :=
        if kb ∧ driveFiles ≠ [] then
          let r := updateCachedFilesWithStatus st1.cache folderId m
          noteFolder { st1 with cache := r.cache } folderId r.hasErrors
        else st1
      { st2 with expandedFolders := folderId :: st2.expandedFolders }
  | .collapseAll =>
    { st with expandedFolders := [], loadingFolders := [], errorToastShown := [] }

/-- Run a trace of events. -/
def run (st : PState) : List Event → PState
  | [] => st
  | e :: rest => run (step st e) rest

/-- Whether a scope's one failure toast has already been shown. -/
def notifiedFor (s : Scope) (st : PState) : Bool :=
  match s with
  | .root => st.hasShownErrorToast
  | .folder folderId => decide (folderId ∈ st.errorToastShown)

/-- Whether an event, taken at state `st`, is a merge that observes at least
one `error` file in scope `s` — i.e. the code path in which the failure
toast for `s` fires, up to the deduplication guard. -/
def observes (s : Scope) (st : PState) : Event → Bool
  | .rootTick resources _ =>
    match s with
    | .root =>
      decide (resources ≠ []) &&
      (let files := resources.filter fun f => decide (f.type = "file")
       decide (files ≠ []) &&
       decide (0 < (files.filter fun f => decide (f.status = some Status.error)).length))
    | .folder _ => false
  | .folderPoll folderId m =>
    match s with
    | .root => false
    | .folder fid =>
      decide (fid = folderId) && !pollFolderContinues m &&
      (updateCachedFilesWithStatus st.cache folderId m).hasErrors
  | .toggle folderId driveFiles m kb =>
    match s with
    | .root => false
    | .folder fid =>
      decide (fid = folderId) && decide (folderId ∉ st.expandedFolders) &&
      decide (kb = true) && decide (driveFiles ≠ []) &&
      (updateCachedFilesWithStatus (setC folderId driveFiles st.cache) folderId m).hasErrors
  | .collapseAll => false

/-- Whether some event of the trace, taken at the state it is reached in,
observes an error in scope `s`. -/
def hasObs (s : Scope) (st : PState) : List Event → Bool
  | [] => false
  | e :: rest => observes s st e || hasObs s (step st e) rest

/-- Number of occurrences of scope `s` in an emission log. -/
def countScope (s : Scope) (l : List Scope) : Nat :=
  (l.filter fun x => decide (x = s)).length

/-- A trace made of polls and expansions only (no collapse-all). -/
def noCollapse (tr : List Event) : Prop :=
  ∀ e ∈ tr, e ≠ Event.collapseAll

instance (tr : List Event) : Decidable (noCollapse tr) := by
  unfold noCollapse; infer_instance

/-! ## Selection propagation (useFileSelection, C6) -/

/-- Lookup in the `childrenMap` of `fileRelationships`: the map has an entry
for every directory in `files`, holding the ids of all nodes whose `name`
starts with the directory's `name` followed by `"/"` (descendants at any
depth).  Ids not bound in the map yield `[]` (`?? []` in the source). -/
def childrenMapGet (files : List FileItem) (id : String) : List String :=
  match files.find? fun f => decide (f.id = id) with
  | some f =>
    if f.type = "directory" then
      (files.filter fun g => strStartsWith g.name (f.name ++ "/")).map (·.id)
    else []
  | none => []

/-- The queue loop of `getAllDescendantIds`, with explicit fuel standing for
the finitely many iterations the JS `while` performs: pop the head, append
its children-map entry to both the result and the queue. -/
def bfsAux (files : List FileItem) : Nat → List String → List String → List String
  | 0, _, acc => acc
  | _ + 1, [], acc => acc
  | fuel + 1, x :: rest, acc =>
    let cs := childrenMapGet files x
    bfsAux files fuel (rest ++ cs) (acc ++ cs)

/-- `getAllDescendantIds(fileId)`: breadth-first traversal of the
children-map starting from `fileId`, collecting descendant ids. -/
def getAllDescendantIds (files : List FileItem) (fileId : String) (fuel : Nat) :
    List String :=
  bfsAux files fuel [fileId] []

/-- A sequence of `newSelection[id] = v` / `delete newSelection[id]` writes,
all with the same value, applied to a selection (JS
`Record<string, boolean>` modelled as its membership function). -/
def applyWrites (ws : List String) (v : Bool) (sel : String → Bool) : String → Bool :=
  ws.foldl (fun s id => fun x => if x = id then v else s x) sel

/-- `handleRowSelection(fileId, isSelected)`: look the node up; toggle it;
if it is a directory, write the same value over all ids returned by
`getAllDescendantIds`. -/
def handleRowSelection (fuel : Nat) (files : List FileItem) (fileId : String)
    (isSelected : Bool) (prev : String → Bool) : String → Bool :=
  match files.find? fun f => decide (f.id = fileId) with
  | none => prev
  | some file =>
    let base : String → Bool := fun id => if id = fileId then isSelected else prev id
    if file.type = "directory" then
      applyWrites (getAllDescendantIds files fileId fuel) isSelected base
    else base

/-- The descendant relation the spec describes: `id` is the id of some known
node whose name extends `d.name ++ "/"`. -/
def descendantPred (files : List FileItem) (d : FileItem) (id : String) : Bool :=
  files.any fun f => decide (f.id = id) && strStartsWith f.name (d.name ++ "/")

/-! ## Deletion planner (useKnowledgeBaseDeletion, C5, C7, C8) -/

/-- `fileMap.get(id)` where `fileMap` indexes `allFiles` by id. -/
def findById (allFiles : List FileItem) (id : String) : Option FileItem :=
  allFiles.find? fun f => decide (f.id = id)

/-- The `selectedIds.forEach` accumulation of `deleteSelectedFiles`: a
directly-selected indexed file is pushed as-is; a selected directory pushes
every known indexed file under its path prefix; other selections (unknown
ids, non-indexed files) contribute nothing. -/
def collectCandidates (allFiles : List FileItem) : List String → List FileItem
  | [] => []
  | id :: rest =>
    (match findById allFiles id with
     | none => []
     | some item =>
       if item.type = "file" ∧ item.status = some Status.indexed then [item]
       else if item.type = "directory" then
         allFiles.filter fun f =>
           decide (f.type = "file") && decide (f.status = some Status.indexed)
           && strStartsWith f.name (item.name ++ "/")
       else [])
    ++ collectCandidates allFiles rest

/-- The duplicate-removal pass
`filter((file, index, arr) => arr.findIndex(f => f.id === file.id) === index)`:
keep the first occurrence of each id. -/
def dedupAux : List FileItem → List String → List FileItem
  | [], _ => []
  | f :: rest, seen =>
    if f.id ∈ seen then dedupAux rest seen
    else f :: dedupAux rest (f.id :: seen)

/-- Deduplicate a candidate list by id, keeping first occurrences. -/
def dedupById (l : List FileItem) : List FileItem :=
  dedupAux l []

/-- The deletion plan: expand the selection to candidates, deduplicate. -/
def planDeletion (selectedIds : List String) (allFiles : List FileItem) :
    List FileItem :=
  dedupById (collectCandidates allFiles selectedIds)

/-- `deleteSelectedFiles(selectedIds, allFiles)`: with no knowledge base or
an empty plan it warns and returns without mutating (`none`); otherwise it
sets `isDeleting` and hands the unique files to the mutation (`some plan`). -/
def deleteSelectedFiles (kbId : Option String) (selectedIds : List String)
    (allFiles : List FileItem) : Option (List FileItem) :=
  match kbId with
  | none => none
  | some _ =>
    let uniqueFiles := planDeletion selectedIds allFiles
    if uniqueFiles = [] then none else some uniqueFiles

/-- The `mutationFn` loop of `deleteFilesMutation`: for each file, mark it
deleting, attempt `deleteKBResource` (outcome given by the oracle: `true` =
resolved, `false` = threw), record the outcome, clear the mark, and continue
with the next file regardless of the outcome. -/
def deleteFilesMutationFn (oracle : FileItem → Bool) :
    List FileItem → List (FileItem × Bool)
  | [] => []
  | f :: rest => (f, oracle f) :: deleteFilesMutationFn oracle rest

/-! ## Tree materializer (buildFileTree / flattenTree, C9) -/

/-- A composed tree node: the cached fields plus the derived `level`,
`isExpanded`, `isLoading` and `children` the materializer attaches. -/
inductive TreeItem where
  | mk (id name type : String) (status : Option Status) (level : Nat)
       (isExpanded isLoading : Bool) (children : List TreeItem)

/-- The children of a composed node. -/
def TreeItem.children : TreeItem → List TreeItem
  | .mk _ _ _ _ _ _ _ c => c

/-- A displayable row: a composed node minus its `children` field. -/
structure Row where
  id : String
  name : String
  type : String
  status : Option Status
  level : Nat
  isExpanded : Bool
  isLoading : Bool
deriving DecidableEq, Repr

/-- Forget a composed node's children. -/
def rowOf : TreeItem → Row
  | .mk i n t s lv e ld _ => ⟨i, n, t, s, lv, e, ld⟩

/-- The last path segment: `name.split("/").pop() || ""`. -/
def lastSeg (name : String) : String :=
  ((name.splitOn "/").getLast?).getD ""

/-- `buildFileTree(files, level, parentPath)`: for each node, derive
`isExpanded`/`isLoading`; a directory that is expanded and not loading and
whose fragment is cached gets its children composed recursively at
`level + 1`, every other node gets `children = []`; at level 0 a node's
status is overridden by the root status map when it has an entry there.
Fuel bounds the recursion depth through the cache (the source recursion
terminates because fragments reference strictly deeper paths). -/
def buildFileTree : Nat → Cache → List String → List String → StatusMap →
    List FileItem → Nat → String → List TreeItem
  | 0, _, _, _, _, _, _, _ => []
  | fuel + 1, cache, expanded, loading, statusMap, files, level, parentPath =>
    files.map fun file =>
      let isExpanded := decide (file.id ∈ expanded)
      let isLoading := decide (file.id ∈ loading)
      let children :=
        if file.type = "directory" ∧ isExpanded = true ∧ isLoading = false then
          match getC cache file.id with
          | some data =>
            let currentPath :=
              if parentPath ≠ "" then parentPath ++ "/" ++ lastSeg file.name
              else lastSeg file.name
            buildFileTree fuel cache expanded loading statusMap data (level + 1) currentPath
          | none => []
        else []
      let status :=
        if level = 0 then
          match getSM statusMap file.id with
          | some s => some s
          | none => file.status
        else file.status
      .mk file.id file.name file.type status level isExpanded isLoading children

/-- `flattenTree`: push each item, then its children, depth-first. -/
def flattenTree : List TreeItem → List TreeItem
  | [] => []
  | .mk i n t s lv e ld c :: rest =>
    .mk i n t s lv e ld c :: (flattenTree c ++ flattenTree rest)

/-- Modelled from the spec: the displayable sequence described in §4.3, as a
single pass — "flattens it via pre-order depth-first traversal (parent
immediately followed by its visible descendants)", where a directory's
children come from the cache "only if expanded and not currently loading",
and `level` is assigned by recursion depth. -/
def materializeRows : Nat → Cache → List String → List String → StatusMap →
    List FileItem → Nat → String → List Row
  | 0, _, _, _, _, _, _, _ => []
  | fuel + 1, cache, expanded, loading, statusMap, files, level, parentPath =>
    files.foldr (fun file acc =>
      let isExpanded := decide (file.id ∈ expanded)
      let isLoading := decide (file.id ∈ loading)
      let status :=
        if level = 0 then
          match getSM statusMap file.id with
          | some s => some s
          | none => file.status
        else file.status
      let descendants :=
        if file.type = "directory" ∧ isExpanded = true ∧ isLoading = false then
          match getC cache file.id with
          | some data =>
            let currentPath :=
              if parentPath ≠ "" then parentPath ++ "/" ++ lastSeg file.name
              else lastSeg file.name
            materializeRows fuel cache expanded loading statusMap data (level + 1) currentPath
          | none => []
        else []
      ⟨file.id, file.name, file.type, status, level, isExpanded, isLoading⟩ :: descendants ++ acc)
      []

/-- The per-node composition performed inside `buildFileTree`'s map (same
body as the inline arrow function; named so equations about one node can be
stated). -/
def buildNode (fuel : Nat) (cache : Cache) (expanded loading : List String)
    (statusMap : StatusMap) (level : Nat) (parentPath : String)
    (file : FileItem) : TreeItem :=
  let isExpanded := decide (file.id ∈ expanded)
  let isLoading := decide (file.id ∈ loading)
  let children :=
    if file.type = "directory" ∧ isExpanded = true ∧ isLoading = false then
      match getC cache file.id with
      | some data =>
        let currentPath :=
          if parentPath ≠ "" then parentPath ++ "/" ++ lastSeg file.name
          else lastSeg file.name
        buildFileTree fuel cache expanded loading statusMap data (level + 1) currentPath
      | none => []
    else []
  let status :=
    if level = 0 then
      match getSM statusMap file.id with
      | some s => some s
      | none => file.status
    else file.status
  .mk file.id file.name file.type status level isExpanded isLoading children

/-! ## Concrete example data for instantiations -/

/-- Example directory `docs`. -/
def exD : FileItem := ⟨"D", "docs", "directory", none⟩

/-- Example indexed file under `docs`. -/
def exA : FileItem := ⟨"a", "docs/a", "file", some Status.indexed⟩

/-- Example pending file under `docs`. -/
def exB : FileItem := ⟨"b", "docs/b", "file", some Status.pending⟩

/-- Example errored file under `docs`. -/
def exC : FileItem := ⟨"c", "docs/c", "file", some Status.error⟩

/-- Example known-file list: a directory with three descendant files of
statuses `{indexed, pending, error}`. -/
def exFiles : List FileItem := [exD, exA, exB, exC]

/-- Example errored file inside an expanded folder scope. -/
def exErrFile : FileItem := ⟨"e", "kb/e", "file", some Status.error⟩

/-- Example trace: an expansion that merges an errored file, followed by a
settled poll of the same scope that observes the error again. -/
def exTrace : List Event :=
  [Event.toggle "F" [exErrFile] [] true,
   Event.folderPoll "F" [("x", Status.error)]]

/-- Example state in which scope `F` is expanded and already notified (its
one failure toast shows in the emission log). -/
def exPrev : PState :=
  ⟨[], ["F"], [], ["F"], true, true, [Scope.folder "F"]⟩

/-! ## C1: folder-poll settlement -/

/-- C1 counterexample: the claim requires a scope containing a
`pending_delete` file but no `pending` file to keep polling; yet
`pollFolderStatus`'s reschedule condition checks only for `"pending"`, so a
fresh status fetch returning one `pending_delete` entry terminates the
folder poll chain. -/
theorem C1_counterexample :
    pollFolderContinues [("a", Status.pending_delete)] = false := by decide

/-- C1 (amended): the folder-level poller stops exactly when no fetched
status value is `pending` — `pending_delete` does not keep it alive; the
root-level poller (on a tick with data, a non-empty file list, and within
the timeout) stops exactly when no file is `pending` or `pending_delete`. -/
theorem C1_amended :
    (∀ m : StatusMap,
        pollFolderContinues m = false ↔ ∀ s ∈ m.map Prod.snd, s ≠ Status.pending)
    ∧ (∀ (elapsed : Nat) (resources : List FileItem),
        resources ≠ [] →
        (resources.filter fun f => decide (f.type = "file")) ≠ [] →
        elapsed ≤ MAX_POLL_DURATION →
        (rootPollContinues elapsed resources = false ↔
          ∀ f ∈ resources.filter (fun f => decide (f.type = "file")),
            f.status ≠ some Status.pending ∧ f.status ≠ some Status.pending_delete)) := by
  constructor
  · intro m
    simp [pollFolderContinues, List.any_eq_true]
  · intro elapsed resources hres hfiles htime
    unfold rootPollContinues
    rw [if_neg hres, if_neg hfiles, if_neg (by omega)]
    simp [List.any_eq_true, not_or]

/-- C1 amended witness: a root tick whose single file is `pending_delete`
keeps polling; instantiates the amended characterization. -/
theorem C1_amended_witness :
    (([(⟨"a", "a.txt", "file", some Status.pending_delete⟩ : FileItem)] : List FileItem) ≠ []
      ∧ ([⟨"a", "a.txt", "file", some Status.pending_delete⟩] : List FileItem).filter
          (fun f => decide (f.type = "file")) ≠ []
      ∧ (5 : Nat) ≤ MAX_POLL_DURATION)
    ∧ (rootPollContinues 5 [⟨"a", "a.txt", "file", some Status.pending_delete⟩] = false ↔
        ∀ f ∈ ([⟨"a", "a.txt", "file", some Status.pending_delete⟩] : List FileItem).filter
            (fun f => decide (f.type = "file")),
          f.status ≠ some Status.pending ∧ f.status ≠ some Status.pending_delete) :=
  ⟨⟨by decide, by decide, by decide⟩,
    C1_amended.2 5 [⟨"a", "a.txt", "file", some Status.pending_delete⟩]
      (by decide) (by decide) (by decide)⟩

/-! ## C3: bounded poll duration -/

/-- C3 counterexample: the claim requires every scope's poller to stop once
elapsed time exceeds the maximum poll duration; yet `pollFolderStatus` has
no timeout branch, so with a `pending` file it reschedules even when the
elapsed time exceeds `MAX_POLL_DURATION`. -/
theorem C3_counterexample :
    pollFolderContinuesAt (MAX_POLL_DURATION + 1) [("a", Status.pending)] = true := by
  decide

/-- C3 (amended): only the root-level status poller enforces the maximum
poll duration — on any tick with fetched data, elapsed time beyond
`MAX_POLL_DURATION` stops it regardless of remaining unsettled files; the
folder-level poller never consults elapsed time and reschedules at any
elapsed time whenever its fetched map still has a `pending` entry. -/
theorem C3_amended :
    (∀ (elapsed : Nat) (resources : List FileItem),
        MAX_POLL_DURATION < elapsed → rootPollContinues elapsed resources = false)
    ∧ (∀ (elapsed : Nat) (m : StatusMap),
        pollFolderContinues m = true → pollFolderContinuesAt elapsed m = true) := by
  constructor
  · intro elapsed resources h
    unfold rootPollContinues
    by_cases h1 : resources = []
    · rw [if_pos h1]
    · rw [if_neg h1]
      dsimp only
      by_cases h2 : (resources.filter fun f => decide (f.type = "file")) = []
      · rw [if_pos h2]
      · rw [if_neg h2, if_pos (by omega : elapsed > MAX_POLL_DURATION)]
  · intro elapsed m h
    exact h

/-- C3 amended witness: past the deadline the root poller stops even on a
still-pending file, while the folder poller still reschedules. -/
theorem C3_amended_witness :
    (MAX_POLL_DURATION < MAX_POLL_DURATION + 1
      ∧ rootPollContinues (MAX_POLL_DURATION + 1)
          [⟨"a", "a.txt", "file", some Status.pending⟩] = false)
    ∧ (pollFolderContinues [("a", Status.pending)] = true
      ∧ pollFolderContinuesAt (MAX_POLL_DURATION + 7) [("a", Status.pending)] = true) :=
  ⟨⟨by omega,
      C3_amended.1 (MAX_POLL_DURATION + 1)
        [⟨"a", "a.txt", "file", some Status.pending⟩] (by omega)⟩,
    ⟨by decide,
      C3_amended.2 (MAX_POLL_DURATION + 7) [("a", Status.pending)] (by decide)⟩⟩

/-! ## C2: status merge totality -/

/-- C2: merging a status map into a cached fragment sets each node's status
to the map's value exactly when the node's id has an entry, leaves the node
untouched on a miss, and in particular an empty-map merge returns the
fragment unchanged — a merge never resets a previously known status. -/
theorem updateCachedFilesWithStatus_merge :
    (∀ (m : StatusMap) (f : FileItem) (s : Status),
        getSM m f.id = some s → (mergeFile m f).status = some s)
    ∧ (∀ (m : StatusMap) (f : FileItem),
        getSM m f.id = none → mergeFile m f = f)
    ∧ (∀ (cache : Cache) (folderId : String) (data : List FileItem),
        getC cache folderId = some data →
        (updateCachedFilesWithStatus cache folderId []).updatedFiles = data) := by
  have hmiss : ∀ (m : StatusMap) (f : FileItem),
      getSM m f.id = none → mergeFile m f = f := by
    intro m f h
    cases f with
    | mk id name type status =>
      simp only [mergeFile] at *
      rw [h]
  refine ⟨?_, hmiss, ?_⟩
  · intro m f s h
    simp only [mergeFile]
    rw [h]
  · intro cache folderId data h
    simp only [updateCachedFilesWithStatus]
    rw [h]
    simp only [MergeResult.updatedFiles]
    have : ∀ f : FileItem, mergeFile [] f = f := fun f => hmiss [] f rfl
    calc data.map (mergeFile []) = data.map id := List.map_congr_left fun f _ => this f
      _ = data := List.map_id data

/-- C2 witness: a hit overrides, a miss preserves, and the empty-map merge
of a concrete one-file fragment is the identity. -/
theorem updateCachedFilesWithStatus_merge_witness :
    (getSM [("a", Status.indexed)] "a" = some Status.indexed
      ∧ (mergeFile [("a", Status.indexed)]
          ⟨"a", "docs/a", "file", some Status.pending⟩).status = some Status.indexed)
    ∧ (getSM [("a", Status.indexed)] "b" = none
      ∧ mergeFile [("a", Status.indexed)] ⟨"b", "docs/b", "file", some Status.error⟩ =
          ⟨"b", "docs/b", "file", some Status.error⟩)
    ∧ (getC [("F", [⟨"a", "docs/a", "file", some Status.pending⟩])] "F" =
          some [⟨"a", "docs/a", "file", some Status.pending⟩]
      ∧ (updateCachedFilesWithStatus
          [("F", [⟨"a", "docs/a", "file", some Status.pending⟩])] "F" []).updatedFiles =
          [⟨"a", "docs/a", "file", some Status.pending⟩]) :=
  ⟨⟨by decide,
      updateCachedFilesWithStatus_merge.1 [("a", Status.indexed)]
        ⟨"a", "docs/a", "file", some Status.pending⟩ Status.indexed (by decide)⟩,
    ⟨by decide,
      updateCachedFilesWithStatus_merge.2.1 [("a", Status.indexed)]
        ⟨"b", "docs/b", "file", some Status.error⟩ (by decide)⟩,
    ⟨by decide,
      updateCachedFilesWithStatus_merge.2.2
        [("F", [⟨"a", "docs/a", "file", some Status.pending⟩])] "F"
        [⟨"a", "docs/a", "file", some Status.pending⟩] (by decide)⟩⟩

/-! ## C7: empty plan aborts -/

/-- C7: whenever the expanded, status-filtered candidate set is empty,
`deleteSelectedFiles` returns before executing: no mutation is started, so
no deletion network call is made and neither the deleting-marks nor the
cache are touched. -/
theorem deleteSelectedFiles_empty_plan_aborts :
    ∀ (kbId : Option String) (selectedIds : List String) (allFiles : List FileItem),
      planDeletion selectedIds allFiles = [] →
      deleteSelectedFiles kbId selectedIds allFiles = none := by
  intro kbId selectedIds allFiles h
  cases kbId with
  | none => rfl
  | some k =>
    simp only [deleteSelectedFiles]
    rw [if_pos h]

/-- C7 witness: selecting a directory whose descendants are `pending` and
`error` (zero `indexed` descendants) yields the empty plan and an abort. -/
theorem deleteSelectedFiles_empty_plan_aborts_witness :
    planDeletion ["D"]
      [⟨"D", "docs", "directory", none⟩,
       ⟨"b", "docs/b", "file", some Status.pending⟩,
       ⟨"c", "docs/c", "file", some Status.error⟩] = []
    ∧ deleteSelectedFiles (some "kb1") ["D"]
        [⟨"D", "docs", "directory", none⟩,
         ⟨"b", "docs/b", "file", some Status.pending⟩,
         ⟨"c", "docs/c", "file", some Status.error⟩] = none :=
  ⟨by decide,
    deleteSelectedFiles_empty_plan_aborts (some "kb1") ["D"]
      [⟨"D", "docs", "directory", none⟩,
       ⟨"b", "docs/b", "file", some Status.pending⟩,
       ⟨"c", "docs/c", "file", some Status.error⟩] (by decide)⟩

/-! ## C8: best-effort batch -/

/-- C8: the deletion batch attempts every candidate — the results list has
exactly one outcome per candidate, in order — and each outcome is that
candidate's own success/failure as given by the call oracle, so one
candidate's failure never prevents later candidates' attempts. -/
theorem deleteFilesMutationFn_attempts_all :
    ∀ (oracle : FileItem → Bool) (filesToDelete : List FileItem),
      (deleteFilesMutationFn oracle filesToDelete).map Prod.fst = filesToDelete
      ∧ ∀ p ∈ deleteFilesMutationFn oracle filesToDelete, p.2 = oracle p.1 := by
  intro oracle filesToDelete
  induction filesToDelete with
  | nil => exact ⟨rfl, by intro p hp; cases hp⟩
  | cons f rest ih =>
    refine ⟨?_, ?_⟩
    · simp only [deleteFilesMutationFn, List.map_cons, ih.1]
    · intro p hp
      simp only [deleteFilesMutationFn] at hp
      cases hp with
      | head => rfl
      | tail _ hp' => exact ih.2 p hp'

/-- C8 witness: a two-candidate batch where the first call fails still
attempts and records the second. -/
theorem deleteFilesMutationFn_attempts_all_witness :
    (deleteFilesMutationFn (fun f => decide (f.id = "ok"))
        [⟨"bad", "docs/bad", "file", some Status.indexed⟩,
         ⟨"ok", "docs/ok", "file", some Status.indexed⟩]).map Prod.fst =
      [⟨"bad", "docs/bad", "file", some Status.indexed⟩,
       ⟨"ok", "docs/ok", "file", some Status.indexed⟩]
    ∧ ((⟨"ok", "docs/ok", "file", some Status.indexed⟩, true) :
        FileItem × Bool).2 =
        (fun f : FileItem => decide (f.id = "ok"))
          ((⟨"ok", "docs/ok", "file", some Status.indexed⟩, true) : FileItem × Bool).1 :=
  ⟨(deleteFilesMutationFn_attempts_all (fun f => decide (f.id = "ok"))
      [⟨"bad", "docs/bad", "file", some Status.indexed⟩,
       ⟨"ok", "docs/ok", "file", some Status.indexed⟩]).1,
    (deleteFilesMutationFn_attempts_all (fun f => decide (f.id = "ok"))
      [⟨"bad", "docs/bad", "file", some Status.indexed⟩,
       ⟨"ok", "docs/ok", "file", some Status.indexed⟩]).2
      (⟨"ok", "docs/ok", "file", some Status.indexed⟩, true) (by decide)⟩

/-! ## C5: deletion plan -/

/-- With pairwise-distinct ids, two known files with the same id are equal. -/
theorem id_inj_of_nodup {l : List FileItem}
    (hnd : (l.map (·.id)).Nodup) :
    ∀ a ∈ l, ∀ b ∈ l, a.id = b.id → a = b := by
  induction l with
  | nil => intro a ha; cases ha
  | cons x xs ih =>
    rw [List.map_cons, List.nodup_cons] at hnd
    intro a ha b hb he
    cases ha with
    | head =>
      cases hb with
      | head => rfl
      | tail _ hb' =>
        exact absurd (he ▸ List.mem_map_of_mem (·.id) hb') hnd.1
    | tail _ ha' =>
      cases hb with
      | head =>
        exact absurd (he ▸ List.mem_map_of_mem (·.id) ha') hnd.1
      | tail _ hb' => exact ih hnd.2 a ha' b hb' he

/-- With pairwise-distinct ids, looking a known file up by its own id finds
exactly that file. -/
theorem findById_eq_some_self {l : List FileItem} {f : FileItem}
    (hnd : (l.map (·.id)).Nodup) (hf : f ∈ l) :
    findById l f.id = some f := by
  induction l with
  | nil => cases hf
  | cons x xs ih =>
    rw [List.map_cons, List.nodup_cons] at hnd
    cases hf with
    | head =>
      simp [findById, List.find?]
    | tail _ hf' =>
      have hne : decide (x.id = f.id) = false := by
        apply decide_eq_false
        intro he
        exact hnd.1 (he ▸ List.mem_map_of_mem (·.id) hf')
      simp only [findById, List.find?, hne]
      exact ih hnd.2 hf'

/-- Membership in the candidate accumulation of `deleteSelectedFiles`. -/
theorem mem_collectCandidates {allFiles : List FileItem} {sel : List String}
    {x : FileItem} (hnd : (allFiles.map (·.id)).Nodup) :
    x ∈ collectCandidates allFiles sel ↔
      (x ∈ allFiles ∧ x.type = "file" ∧ x.status = some Status.indexed ∧
        (x.id ∈ sel ∨ ∃ d, d ∈ allFiles ∧ d.id ∈ sel ∧ d.type = "directory" ∧
          strStartsWith x.name (d.name ++ "/") = true)) := by
  induction sel with
  | nil => simp [collectCandidates]
  | cons id rest ih =>
    simp only [collectCandidates, List.mem_append]
    constructor
    · rintro (hx | hx)
      · rcases hfb : findById allFiles id with _ | item
        · rw [hfb] at hx; cases hx
        · rw [hfb] at hx
          dsimp only at hx
          have hitem : item ∈ allFiles :=
            List.mem_of_find?_eq_some hfb
          have hid : item.id = id := by
            have := List.find?_some hfb
            exact of_decide_eq_true this
          split_ifs at hx with h1 h2
          · have hx' : x = item := List.mem_singleton.mp hx
            subst hx'
            exact ⟨hitem, h1.1, h1.2,
              Or.inl (by rw [hid]; exact List.mem_cons_self id rest)⟩
          · rw [List.mem_filter] at hx
            rcases hx with ⟨hxmem, hp⟩
            simp only [Bool.and_eq_true, decide_eq_true_eq] at hp
            exact ⟨hxmem, hp.1.1, hp.1.2,
              Or.inr ⟨item, hitem, by rw [hid]; exact List.mem_cons_self id rest, h2, hp.2⟩⟩
          · cases hx
      · rcases ih.mp hx with ⟨hm, hf, hs, hsel⟩
        refine ⟨hm, hf, hs, ?_⟩
        rcases hsel with h | ⟨d, hd, hdid, hddir, hpre⟩
        · exact Or.inl (List.mem_cons_of_mem id h)
        · exact Or.inr ⟨d, hd, List.mem_cons_of_mem id hdid, hddir, hpre⟩
    · rintro ⟨hxmem, hxf, hxs, hsel⟩
      rcases hsel with hid | ⟨d, hd, hdid, hddir, hpre⟩
      · rcases List.mem_cons.mp hid with he | he
        · refine Or.inl ?_
          rw [← he, findById_eq_some_self hnd hxmem]
          dsimp only
          rw [if_pos ⟨hxf, hxs⟩]
          exact List.mem_cons_self x []
        · exact Or.inr (ih.mpr ⟨hxmem, hxf, hxs, Or.inl he⟩)
      · rcases List.mem_cons.mp hdid with he | he
        · refine Or.inl ?_
          rw [← he, findById_eq_some_self hnd hd]
          dsimp only
          have hnot : ¬(d.type = "file" ∧ d.status = some Status.indexed) := by
            intro hc
            rw [hddir] at hc
            exact absurd hc.1 (by decide)
          rw [if_neg hnot, if_pos hddir, List.mem_filter]
          refine ⟨hxmem, ?_⟩
          simp [hxf, hxs, hpre]
        · exact Or.inr (ih.mpr ⟨hxmem, hxf, hxs, Or.inr ⟨d, hd, he, hddir, hpre⟩⟩)

/-- Membership survives the dedup pass when equal-id elements are equal. -/
theorem mem_dedupAux {l : List FileItem} {seen : List String}
    (H : ∀ a ∈ l, ∀ b ∈ l, a.id = b.id → a = b) {x : FileItem} :
    x ∈ dedupAux l seen ↔ (x ∈ l ∧ x.id ∉ seen) := by
  induction l generalizing seen with
  | nil => simp [dedupAux]
  | cons f rest ih =>
    have H' : ∀ a ∈ rest, ∀ b ∈ rest, a.id = b.id → a = b := fun a ha b hb =>
      H a (List.mem_cons_of_mem f ha) b (List.mem_cons_of_mem f hb)
    simp only [dedupAux]
    split_ifs with hseen
    · rw [ih H']
      constructor
      · rintro ⟨hm, hs⟩
        exact ⟨List.mem_cons_of_mem f hm, hs⟩
      · rintro ⟨hm, hs⟩
        rcases List.mem_cons.mp hm with he | he
        · exact absurd (he ▸ hseen) hs
        · exact ⟨he, hs⟩
    · simp only [List.mem_cons, ih H']
      constructor
      · rintro (he | ⟨hm, hs⟩)
        · exact ⟨Or.inl he, he ▸ hseen⟩
        · exact ⟨Or.inr hm, fun hc => hs (Or.inr hc)⟩
      · rintro ⟨he | hm, hs⟩
        · exact Or.inl he
        · by_cases hxf : x.id = f.id
          · exact Or.inl (H x (List.mem_cons_of_mem f hm) f (List.mem_cons_self f rest) hxf)
          · exact Or.inr ⟨hm, fun hc => hc.elim hxf hs⟩

/-- The dedup pass leaves no two entries with the same id. -/
theorem dedupAux_nodup (l : List FileItem) (seen : List String) :
    ((dedupAux l seen).map (·.id)).Nodup
    ∧ ∀ y ∈ dedupAux l seen, y.id ∉ seen := by
  induction l generalizing seen with
  | nil => exact ⟨List.nodup_nil, by intro y hy; cases hy⟩
  | cons f rest ih =>
    simp only [dedupAux]
    split_ifs with hseen
    · exact ih seen
    · rcases ih (f.id :: seen) with ⟨hnd, hnotin⟩
      constructor
      · rw [List.map_cons, List.nodup_cons]
        refine ⟨?_, hnd⟩
        intro hc
        rcases List.mem_map.mp hc with ⟨y, hy, hyid⟩
        exact hnotin y hy (hyid ▸ List.mem_cons_self f.id seen)
      · intro y hy
        rcases List.mem_cons.mp hy with he | he
        · exact he ▸ hseen
        · intro hc
          exact hnotin y he (List.mem_cons_of_mem _ hc)

/-- C5: the deletion plan contains exactly the known `indexed` files that
are directly selected or lie (by path prefix) under a selected directory,
and its ids are pairwise distinct, so a file reachable both directly and
through an ancestor appears once. -/
theorem planDeletion_spec (selectedIds : List String) (allFiles : List FileItem)
    (hnd : (allFiles.map (·.id)).Nodup) :
    (∀ f, f ∈ planDeletion selectedIds allFiles ↔
      (f ∈ allFiles ∧ f.type = "file" ∧ f.status = some Status.indexed ∧
        (f.id ∈ selectedIds ∨ ∃ d, d ∈ allFiles ∧ d.id ∈ selectedIds ∧
          d.type = "directory" ∧ strStartsWith f.name (d.name ++ "/") = true)))
    ∧ ((planDeletion selectedIds allFiles).map (·.id)).Nodup := by
  have hsub : ∀ y ∈ collectCandidates allFiles selectedIds, y ∈ allFiles := by
    intro y hy
    exact ((mem_collectCandidates hnd).mp hy).1
  have H : ∀ a ∈ collectCandidates allFiles selectedIds,
      ∀ b ∈ collectCandidates allFiles selectedIds, a.id = b.id → a = b :=
    fun a ha b hb => id_inj_of_nodup hnd a (hsub a ha) b (hsub b hb)
  constructor
  · intro f
    rw [planDeletion, dedupById, mem_dedupAux H]
    simp only [List.not_mem_nil, not_false_iff, and_true]
    exact mem_collectCandidates hnd
  · exact (dedupAux_nodup (collectCandidates allFiles selectedIds) []).1

/-- C5 witness: selecting directory `D` over descendants
`{a: indexed, b: pending, c: error}` plans exactly `[a]`, and `a` satisfies
the membership characterization. -/
theorem planDeletion_spec_witness :
    ((exFiles.map (·.id)).Nodup)
    ∧ (exA ∈ planDeletion ["D"] exFiles ↔
        (exA ∈ exFiles ∧ exA.type = "file" ∧ exA.status = some Status.indexed ∧
          (exA.id ∈ ["D"] ∨ ∃ d, d ∈ exFiles ∧ d.id ∈ ["D"] ∧
            d.type = "directory" ∧ strStartsWith exA.name (d.name ++ "/") = true)))
    ∧ planDeletion ["D"] exFiles = [exA] :=
  ⟨by decide, (planDeletion_spec ["D"] exFiles (by decide)).1 exA, by decide⟩

/-! ## C6: selection propagation -/

/-- `List.isPrefixOf` on characters is plain prefix decomposition. -/
theorem charPrefix_iff : ∀ (a b : List Char), a.isPrefixOf b = true ↔ ∃ t, a ++ t = b := by
  intro a
  induction a with
  | nil => intro b; simp [List.isPrefixOf]
  | cons x xs ih =>
    intro b
    cases b with
    | nil =>
      simp only [List.isPrefixOf]
      constructor
      · intro h; cases h
      · rintro ⟨t, ht⟩; cases ht
    | cons y ys =>
      simp only [List.isPrefixOf, Bool.and_eq_true, beq_iff_eq, ih ys]
      constructor
      · rintro ⟨rfl, t, rfl⟩
        exact ⟨t, rfl⟩
      · rintro ⟨t, ht⟩
        injection ht with h1 h2
        exact ⟨h1, t, h2⟩

/-- String concatenation acts on the underlying character lists. -/
theorem string_data_append : ∀ a b : String, (a ++ b).data = a.data ++ b.data :=
  fun ⟨_⟩ ⟨_⟩ => rfl

/-- Path-prefix chaining: a node under `g`'s subtree, where `g` itself lies
under `d`'s subtree, lies under `d`'s subtree. -/
theorem strStartsWith_chain {d g f : String}
    (h1 : strStartsWith g (d ++ "/") = true)
    (h2 : strStartsWith f (g ++ "/") = true) :
    strStartsWith f (d ++ "/") = true := by
  unfold strStartsWith at *
  rw [charPrefix_iff] at *
  rcases h1 with ⟨t1, ht1⟩
  rcases h2 with ⟨t2, ht2⟩
  refine ⟨t1 ++ ("/" : String).data ++ t2, ?_⟩
  rw [string_data_append] at ht1 ht2 ⊢
  rw [← ht2, ← ht1]
  simp [List.append_assoc]

/-- The membership form of `descendantPred`. -/
theorem descendantPred_iff {files : List FileItem} {d : FileItem} {id : String} :
    descendantPred files d id = true ↔
      ∃ f, f ∈ files ∧ f.id = id ∧ strStartsWith f.name (d.name ++ "/") = true := by
  simp [descendantPred, List.any_eq_true, Bool.and_eq_true, decide_eq_true_eq,
    and_assoc]

/-- Children-map lookup at a known node's id, given pairwise-distinct ids. -/
theorem childrenMapGet_of_mem {files : List FileItem} {f : FileItem}
    (hnd : (files.map (·.id)).Nodup) (hf : f ∈ files) :
    childrenMapGet files f.id =
      if f.type = "directory" then
        (files.filter fun g => strStartsWith g.name (f.name ++ "/")).map (·.id)
      else [] := by
  have h := findById_eq_some_self hnd hf
  unfold findById at h
  unfold childrenMapGet
  rw [h]

/-- Every id produced by a children-map lookup from the seed or from a
descendant of `d` is itself a descendant of `d`. -/
theorem childrenMapGet_descendants {files : List FileItem} {d : FileItem}
    (hnd : (files.map (·.id)).Nodup) (hd : d ∈ files)
    (hdir : d.type = "directory") :
    (∀ c ∈ childrenMapGet files d.id, descendantPred files d c = true)
    ∧ (∀ x, descendantPred files d x = true →
        ∀ c ∈ childrenMapGet files x, descendantPred files d c = true) := by
  constructor
  · intro c hc
    rw [childrenMapGet_of_mem hnd hd, if_pos hdir] at hc
    rcases List.mem_map.mp hc with ⟨g, hg, rfl⟩
    rw [List.mem_filter] at hg
    exact descendantPred_iff.mpr ⟨g, hg.1, rfl, hg.2⟩
  · intro x hx c hc
    rcases descendantPred_iff.mp hx with ⟨g, hg, rfl, hgpre⟩
    rw [childrenMapGet_of_mem hnd hg] at hc
    split_ifs at hc with hgdir
    · rcases List.mem_map.mp hc with ⟨k, hk, rfl⟩
      rw [List.mem_filter] at hk
      exact descendantPred_iff.mpr ⟨k, hk.1, rfl, strStartsWith_chain hgpre hk.2⟩
    · cases hc

/-- Everything the queue loop collects, starting from an invariant-respecting
queue and accumulator, is a descendant of `d`. -/
theorem bfsAux_descendants {files : List FileItem} {d : FileItem}
    (hnd : (files.map (·.id)).Nodup) (hd : d ∈ files)
    (hdir : d.type = "directory") :
    ∀ (fuel : Nat) (queue acc : List String),
      (∀ q ∈ queue, q = d.id ∨ descendantPred files d q = true) →
      (∀ a ∈ acc, descendantPred files d a = true) →
      ∀ y ∈ bfsAux files fuel queue acc, descendantPred files d y = true := by
  intro fuel
  induction fuel with
  | zero => intro queue acc _ hacc y hy; exact hacc y hy
  | succ n ih =>
    intro queue acc hq hacc y hy
    cases queue with
    | nil => exact hacc y hy
    | cons x rest =>
      simp only [bfsAux] at hy
      have hcs : ∀ c ∈ childrenMapGet files x, descendantPred files d c = true := by
        rcases hq x (List.mem_cons_self x rest) with rfl | hx
        · exact (childrenMapGet_descendants hnd hd hdir).1
        · exact (childrenMapGet_descendants hnd hd hdir).2 x hx
      refine ih (rest ++ childrenMapGet files x) (acc ++ childrenMapGet files x)
        ?_ ?_ y hy
      · intro q hqm
        rcases List.mem_append.mp hqm with h | h
        · exact hq q (List.mem_cons_of_mem x h)
        · exact Or.inr (hcs q h)
      · intro a ham
        rcases List.mem_append.mp ham with h | h
        · exact hacc a h
        · exact hcs a h

/-- The queue loop only ever extends the accumulator. -/
theorem bfsAux_acc_subset {files : List FileItem} :
    ∀ (fuel : Nat) (queue acc : List String), ∀ y ∈ acc, y ∈ bfsAux files fuel queue acc := by
  intro fuel
  induction fuel with
  | zero => intro queue acc y hy; exact hy
  | succ n ih =>
    intro queue acc y hy
    cases queue with
    | nil => exact hy
    | cons x rest =>
      simp only [bfsAux]
      exact ih _ _ y (List.mem_append.mpr (Or.inl hy))

/-- `getAllDescendantIds` collects exactly the ids of nodes whose names lie
under the directory's path, for any positive fuel. -/
theorem getAllDescendantIds_mem {files : List FileItem} {d : FileItem}
    {fuel : Nat} (hnd : (files.map (·.id)).Nodup) (hd : d ∈ files)
    (hdir : d.type = "directory") (hfuel : 1 ≤ fuel) :
    ∀ y, y ∈ getAllDescendantIds files d.id fuel ↔ descendantPred files d y = true := by
  intro y
  constructor
  · intro hy
    refine bfsAux_descendants hnd hd hdir fuel [d.id] [] ?_ ?_ y hy
    · intro q hq
      rcases List.mem_cons.mp hq with h | h
      · exact Or.inl h
      · cases h
    · intro a ha; cases ha
  · intro hy
    rcases Nat.exists_eq_add_of_le hfuel with ⟨n, rfl⟩
    unfold getAllDescendantIds
    simp only [Nat.add_comm 1 n, bfsAux, List.nil_append]
    have hyc : y ∈ childrenMapGet files d.id := by
      rw [childrenMapGet_of_mem hnd hd, if_pos hdir]
      rcases descendantPred_iff.mp hy with ⟨g, hg, rfl, hgpre⟩
      exact List.mem_map.mpr ⟨g, List.mem_filter.mpr ⟨hg, hgpre⟩, rfl⟩
    exact bfsAux_acc_subset n _ _ y hyc

/-- A run of identical boolean writes acts pointwise. -/
theorem applyWrites_eq (ws : List String) (v : Bool) (sel : String → Bool)
    (x : String) :
    applyWrites ws v sel x = if x ∈ ws then v else sel x := by
  induction ws generalizing sel with
  | nil => simp [applyWrites]
  | cons w ws' ih =>
    simp only [applyWrites, List.foldl_cons] at *
    rw [ih]
    by_cases h1 : x ∈ ws'
    · rw [if_pos h1, if_pos (List.mem_cons_of_mem w h1)]
    · rw [if_neg h1]
      by_cases h2 : x = w
      · rw [if_pos h2, if_pos (List.mem_cons.mpr (Or.inl h2))]
      · rw [if_neg h2, if_neg (fun hc => (List.mem_cons.mp hc).elim h2 h1)]

/-- C6: toggling a directory writes the toggle value over exactly the
directory itself and every currently-known node whose name extends the
directory's name followed by `"/"`, and leaves every other id's selection
state unchanged — for selecting (`b = true`) and deselecting (`b = false`)
alike. -/
theorem handleRowSelection_spec (fuel : Nat) (files : List FileItem)
    (d : FileItem) (b : Bool) (prev : String → Bool)
    (hnd : (files.map (·.id)).Nodup) (hd : d ∈ files)
    (hdir : d.type = "directory") (hfuel : 1 ≤ fuel) :
    ∀ id, handleRowSelection fuel files d.id b prev id =
      if id = d.id ∨ descendantPred files d id = true then b else prev id := by
  intro id
  have hfind := findById_eq_some_self hnd hd
  unfold findById at hfind
  unfold handleRowSelection
  rw [hfind]
  dsimp only
  rw [if_pos hdir, applyWrites_eq]
  by_cases hdesc : descendantPred files d id = true
  · rw [if_pos ((getAllDescendantIds_mem hnd hd hdir hfuel id).mpr hdesc),
      if_pos (Or.inr hdesc)]
  · rw [if_neg (fun hc => hdesc ((getAllDescendantIds_mem hnd hd hdir hfuel id).mp hc))]
    by_cases hid : id = d.id
    · rw [if_pos hid, if_pos (Or.inl hid)]
    · rw [if_neg hid, if_neg (fun hc => hc.elim hid hdesc)]

/-- C6 witness: selecting directory `docs` over cached descendants
`{a, b, c}` marks descendant `b`; instantiates the pointwise
characterization at id `"b"`. -/
theorem handleRowSelection_spec_witness :
    ((exFiles.map (·.id)).Nodup ∧ exD ∈ exFiles ∧ exD.type = "directory"
      ∧ (1 : Nat) ≤ 5)
    ∧ handleRowSelection 5 exFiles exD.id true (fun _ => false) "b" =
        (if "b" = exD.id ∨ descendantPred exFiles exD "b" = true then true
         else (fun _ : String => false) "b") :=
  ⟨⟨by decide, by decide, by decide, by decide⟩,
    handleRowSelection_spec 5 exFiles exD true (fun _ => false)
      (by decide) (by decide) (by decide) (by decide) "b"⟩

/-! ## C9: materializer -/

/-- Unfolding `buildFileTree` at positive fuel into its per-node map. -/
theorem buildFileTree_succ (fuel : Nat) (cache : Cache) (e l : List String)
    (sm : StatusMap) (files : List FileItem) (lv : Nat) (pp : String) :
    buildFileTree (fuel + 1) cache e l sm files lv pp =
      files.map (buildNode fuel cache e l sm lv pp) := rfl

/-- The flattened row of one composed node. -/
theorem rowOf_buildNode (fuel : Nat) (cache : Cache) (e l : List String)
    (sm : StatusMap) (lv : Nat) (pp : String) (f : FileItem) :
    rowOf (buildNode fuel cache e l sm lv pp f) =
      ⟨f.id, f.name, f.type,
        (if lv = 0 then
          match getSM sm f.id with
          | some s => some s
          | none => f.status
         else f.status),
        lv, decide (f.id ∈ e), decide (f.id ∈ l)⟩ := rfl

/-- The composed children of one node. -/
theorem children_buildNode (fuel : Nat) (cache : Cache) (e l : List String)
    (sm : StatusMap) (lv : Nat) (pp : String) (f : FileItem) :
    (buildNode fuel cache e l sm lv pp f).children =
      (if f.type = "directory" ∧ decide (f.id ∈ e) = true ∧ decide (f.id ∈ l) = false then
        match getC cache f.id with
        | some data =>
          buildFileTree fuel cache e l sm data (lv + 1)
            (if pp ≠ "" then pp ++ "/" ++ lastSeg f.name else lastSeg f.name)
        | none => []
       else []) := rfl

/-- `flattenTree` emits the head, then its subtree, then the siblings. -/
theorem flattenTree_cons (t : TreeItem) (rest : List TreeItem) :
    flattenTree (t :: rest) = t :: (flattenTree t.children ++ flattenTree rest) := by
  cases t
  simp only [flattenTree, TreeItem.children]

/-- Unfolding `materializeRows` at positive fuel on a cons. -/
theorem materializeRows_cons (fuel : Nat) (cache : Cache) (e l : List String)
    (sm : StatusMap) (f : FileItem) (fs : List FileItem) (lv : Nat) (pp : String) :
    materializeRows (fuel + 1) cache e l sm (f :: fs) lv pp =
      ⟨f.id, f.name, f.type,
        (if lv = 0 then
          match getSM sm f.id with
          | some s => some s
          | none => f.status
         else f.status),
        lv, decide (f.id ∈ e), decide (f.id ∈ l)⟩ ::
      (if f.type = "directory" ∧ decide (f.id ∈ e) = true ∧ decide (f.id ∈ l) = false then
        match getC cache f.id with
        | some data =>
          materializeRows fuel cache e l sm data (lv + 1)
            (if pp ≠ "" then pp ++ "/" ++ lastSeg f.name else lastSeg f.name)
        | none => []
       else []) ++ materializeRows (fuel + 1) cache e l sm fs lv pp := rfl

/-- C9: the materializer's displayable sequence — flattening the composed
tree and dropping the nested children — is exactly the one-pass pre-order
depth-first traversal in which each parent row is immediately followed by
its visible descendants, a directory's children come from its cached
fragment exactly when it is expanded and not loading (otherwise none), and
each row's level is its recursion depth. -/
theorem flattenTree_buildFileTree_eq :
    ∀ (fuel : Nat) (cache : Cache) (expanded loading : List String)
      (statusMap : StatusMap) (files : List FileItem) (level : Nat)
      (parentPath : String),
      (flattenTree (buildFileTree fuel cache expanded loading statusMap
          files level parentPath)).map rowOf =
        materializeRows fuel cache expanded loading statusMap files level parentPath := by
  intro fuel
  induction fuel with
  | zero =>
    intro cache e l sm files lv pp
    simp only [buildFileTree, flattenTree, materializeRows, List.map_nil]
  | succ n ih =>
    intro cache e l sm files lv pp
    induction files with
    | nil =>
      simp only [buildFileTree_succ, List.map_nil, flattenTree, materializeRows,
        List.foldr_nil]
    | cons f fs ihf =>
      rw [buildFileTree_succ] at ihf ⊢
      rw [List.map_cons, flattenTree_cons, List.map_cons, List.map_append,
        materializeRows_cons, rowOf_buildNode, children_buildNode, ihf]
      congr 1
      congr 1
      by_cases hc : f.type = "directory" ∧ decide (f.id ∈ e) = true
          ∧ decide (f.id ∈ l) = false
      · rw [if_pos hc, if_pos hc]
        rcases hgc : getC cache f.id with _ | data
        · dsimp only
          simp only [flattenTree, List.map_nil]
        · dsimp only
          exact ih cache e l sm data (lv + 1) _
      · rw [if_neg hc, if_neg hc]
        simp only [flattenTree, List.map_nil]

/-! ## C4: at-most-once failure notification -/

/-- Occurrence counts distribute over appended logs. -/
theorem countScope_append (s : Scope) (a b : List Scope) :
    countScope s (a ++ b) = countScope s a + countScope s b := by
  simp [countScope, List.filter_append]

/-- Setting a fragment makes it the one read back. -/
theorem getC_setC (id : String) (v : List FileItem) (c : Cache) :
    getC (setC id v c) id = some v := by
  simp [getC, setC]

/-- Field effects of the root toast block. -/
theorem noteRoot_fields (st : PState) (b : Bool) :
    (noteRoot st b).errorToastShown = st.errorToastShown
    ∧ (noteRoot st b).hasShownErrorToast = (st.hasShownErrorToast || b)
    ∧ (noteRoot st b).emissions =
        st.emissions ++
          (if b = true ∧ st.hasShownErrorToast = false then [Scope.root] else []) := by
  unfold noteRoot
  split_ifs with h
  · rcases h with ⟨hb, hf⟩
    subst hb
    simp [hf]
  · refine ⟨rfl, ?_, by simp⟩
    cases hb : b with
    | false => simp
    | true =>
      cases hf : st.hasShownErrorToast with
      | false => exact absurd ⟨hb, hf⟩ h
      | true => simp

/-- Field effects of the folder toast block. -/
theorem noteFolder_fields (st : PState) (fid : String) (h : Bool) :
    (noteFolder st fid h).hasShownErrorToast = st.hasShownErrorToast
    ∧ (noteFolder st fid h).emissions =
        st.emissions ++
          (if h = true ∧ fid ∉ st.errorToastShown then [Scope.folder fid] else [])
    ∧ ∀ f', decide (f' ∈ (noteFolder st fid h).errorToastShown) =
        (decide (f' ∈ st.errorToastShown) ||
          (decide (f' = fid) && (h && decide (fid ∉ st.errorToastShown)))) := by
  unfold noteFolder
  split_ifs with hg
  · rcases hg with ⟨hh, hmem⟩
    subst hh
    refine ⟨rfl, rfl, ?_⟩
    intro f'
    by_cases hf : f' = fid
    · subst hf
      simp [List.mem_cons, hmem]
    · simp [List.mem_cons, hf]
  · refine ⟨rfl, by simp, ?_⟩
    intro f'
    cases hh : h with
    | false => simp
    | true =>
      have hmem : fid ∈ st.errorToastShown := by
        by_contra hc
        exact hg ⟨hh, hc⟩
      simp [hmem]

/-- The guard set after the root toast block. -/
theorem noteRoot_toastShown (st : PState) (b : Bool) :
    (noteRoot st b).errorToastShown = st.errorToastShown :=
  (noteRoot_fields st b).1

/-- The dedup flag after the root toast block. -/
theorem noteRoot_flag (st : PState) (b : Bool) :
    (noteRoot st b).hasShownErrorToast = (st.hasShownErrorToast || b) :=
  (noteRoot_fields st b).2.1

/-- The emission log after the root toast block. -/
theorem noteRoot_emissions (st : PState) (b : Bool) :
    (noteRoot st b).emissions =
      st.emissions ++
        (if b = true ∧ st.hasShownErrorToast = false then [Scope.root] else []) :=
  (noteRoot_fields st b).2.2

/-- The dedup flag after the folder toast block. -/
theorem noteFolder_flag (st : PState) (fid : String) (h : Bool) :
    (noteFolder st fid h).hasShownErrorToast = st.hasShownErrorToast :=
  (noteFolder_fields st fid h).1

/-- The emission log after the folder toast block. -/
theorem noteFolder_emissions (st : PState) (fid : String) (h : Bool) :
    (noteFolder st fid h).emissions =
      st.emissions ++
        (if h = true ∧ fid ∉ st.errorToastShown then [Scope.folder fid] else []) :=
  (noteFolder_fields st fid h).2.1

/-- Guard-set membership after the folder toast block. -/
theorem noteFolder_toastShown_mem (st : PState) (fid : String) (h : Bool)
    (f' : String) :
    decide (f' ∈ (noteFolder st fid h).errorToastShown) =
      (decide (f' ∈ st.errorToastShown) ||
        (decide (f' = fid) && (h && decide (fid ∉ st.errorToastShown)))) :=
  (noteFolder_fields st fid h).2.2 f'

/-- Count of a scope in a one-element log. -/
theorem countScope_single (s x : Scope) :
    countScope s [x] = if x = s then 1 else 0 := by
  by_cases h : x = s <;> simp [countScope, h]

/-- One step never removes a prior notification mark and adds one exactly
when the event observes an error for the scope (collapse-all excluded). -/
theorem notifiedFor_step (s : Scope) (st : PState) (e : Event)
    (hne : e ≠ Event.collapseAll) :
    notifiedFor s (step st e) = (notifiedFor s st || observes s st e) := by
  cases e with
  | rootTick res elapsed =>
    simp only [step]
    by_cases h1 : res = []
    · rw [if_pos h1]
      cases s <;> simp [observes, notifiedFor, h1]
    · rw [if_neg h1]
      by_cases h2 : (res.filter fun f => decide (f.type = "file")) = []
      · rw [if_pos h2]
        cases s <;> simp [observes, notifiedFor, h1, h2]
      · rw [if_neg h2]
        cases s with
        | root =>
          simp only [notifiedFor, apply_ite PState.hasShownErrorToast,
            noteRoot_flag, ite_self]
          simp [observes, h1, h2]
        | folder fid =>
          simp only [notifiedFor, apply_ite PState.errorToastShown,
            noteRoot_toastShown, ite_self]
          simp [observes]
  | folderPoll fid m =>
    simp only [step]
    by_cases hp : pollFolderContinues m = true
    · rw [if_pos hp]
      cases s <;> simp [observes, notifiedFor, hp]
    · rw [if_neg hp]
      have hp' : pollFolderContinues m = false := by
        cases hpc : pollFolderContinues m with
        | false => rfl
        | true => exact absurd hpc hp
      cases s with
      | root =>
        simp only [notifiedFor, noteFolder_flag]
        simp [observes]
      | folder f' =>
        simp only [notifiedFor, noteFolder_toastShown_mem]
        simp only [observes, hp']
        by_cases hf : f' = fid
        · subst hf
          by_cases hm : f' ∈ st.errorToastShown <;> simp [hm]
        · simp [hf]
  | toggle fid df m kb =>
    simp only [step]
    by_cases hexp : fid ∈ st.expandedFolders
    · rw [if_pos hexp]
      cases s <;> simp [observes, notifiedFor, hexp]
    · rw [if_neg hexp]
      by_cases hkb : kb = true ∧ df ≠ []
      · rw [if_pos hkb]
        cases s with
        | root =>
          simp only [notifiedFor, noteFolder_flag]
          simp [observes]
        | folder f' =>
          simp only [notifiedFor, noteFolder_toastShown_mem]
          simp only [observes, hkb.1]
          by_cases hf : f' = fid
          · subst hf
            by_cases hm : f' ∈ st.errorToastShown <;>
              simp [hm, hexp, hkb.2]
          · simp [hf]
      · rw [if_neg hkb]
        cases s with
        | root => simp [observes, notifiedFor]
        | folder f' =>
          simp only [notifiedFor, observes]
          rcases not_and_or.mp hkb with h | h
          · simp [h]
          · rw [not_not] at h
            simp [h]
  | collapseAll => exact absurd rfl hne

/-- Count of a scope in the empty log. -/
theorem countScope_nil (s : Scope) : countScope s [] = 0 := rfl

/-- One step adds one emission for a scope exactly when it observes an
error for that scope and the scope is not yet notified. -/
theorem countScope_step (s : Scope) (st : PState) (e : Event) :
    countScope s (step st e).emissions =
      countScope s st.emissions +
        (if observes s st e = true ∧ notifiedFor s st = false then 1 else 0) := by
  cases e with
  | rootTick res elapsed =>
    simp only [step]
    by_cases h1 : res = []
    · rw [if_pos h1]
      cases s <;> simp [observes, h1]
    · rw [if_neg h1]
      by_cases h2 : (res.filter fun f => decide (f.type = "file")) = []
      · rw [if_pos h2]
        cases s <;> simp [observes, h1, h2]
      · rw [if_neg h2]
        simp only [apply_ite PState.emissions, noteRoot_emissions, ite_self]
        rw [countScope_append]
        cases s with
        | root =>
          by_cases he : (0 <
              ((res.filter fun f => decide (f.type = "file")).filter
                fun f => decide (f.status = some Status.error)).length)
          · by_cases hfl : st.hasShownErrorToast = false <;>
              simp_all [observes, notifiedFor,
                apply_ite (countScope Scope.root), countScope_single, countScope_nil]
          · simp_all [observes, notifiedFor,
              apply_ite (countScope Scope.root), countScope_single, countScope_nil]
        | folder f' =>
          simp_all [observes, notifiedFor,
            apply_ite (countScope (Scope.folder f')), countScope_single, countScope_nil]
  | folderPoll fid m =>
    simp only [step]
    by_cases hp : pollFolderContinues m = true
    · rw [if_pos hp]
      cases s <;> simp [observes, hp]
    · rw [if_neg hp]
      have hp' : pollFolderContinues m = false := by
        cases hpc : pollFolderContinues m with
        | false => rfl
        | true => exact absurd hpc hp
      rw [noteFolder_emissions, countScope_append]
      cases s with
      | root =>
        simp_all [observes, notifiedFor,
          apply_ite (countScope Scope.root), countScope_single, countScope_nil]
      | folder f' =>
        by_cases hf : f' = fid
        · subst hf
          by_cases herr :
              (updateCachedFilesWithStatus st.cache f' m).hasErrors = true
          · by_cases hm : f' ∈ st.errorToastShown <;>
              simp_all [observes, notifiedFor,
                apply_ite (countScope (Scope.folder f')), countScope_single, countScope_nil]
          · simp_all [observes, notifiedFor,
              apply_ite (countScope (Scope.folder f')), countScope_single, countScope_nil]
        · have hf2 : ¬fid = f' := fun hc => hf hc.symm
          simp_all [observes, notifiedFor,
            apply_ite (countScope (Scope.folder f')), countScope_single, countScope_nil]
  | toggle fid df m kb =>
    simp only [step]
    by_cases hexp : fid ∈ st.expandedFolders
    · rw [if_pos hexp]
      cases s <;> simp [observes, hexp]
    · rw [if_neg hexp]
      by_cases hkb : kb = true ∧ df ≠ []
      · rw [if_pos hkb]
        rw [noteFolder_emissions, countScope_append]
        cases s with
        | root =>
          simp_all [observes, notifiedFor,
            apply_ite (countScope Scope.root), countScope_single, countScope_nil]
        | folder f' =>
          by_cases hf : f' = fid
          · subst hf
            by_cases herr :
                (updateCachedFilesWithStatus (setC f' df st.cache) f' m).hasErrors = true
            · by_cases hm : f' ∈ st.errorToastShown <;>
                simp_all [observes, notifiedFor,
                  apply_ite (countScope (Scope.folder f')), countScope_single, countScope_nil]
            · simp_all [observes, notifiedFor,
                apply_ite (countScope (Scope.folder f')), countScope_single, countScope_nil]
          · have hf2 : ¬fid = f' := fun hc => hf hc.symm
            simp_all [observes, notifiedFor,
              apply_ite (countScope (Scope.folder f')), countScope_single, countScope_nil]
      · rw [if_neg hkb]
        cases s with
        | root => simp [observes]
        | folder f' =>
          simp only [observes]
          rcases not_and_or.mp hkb with h | h
          · simp [h]
          · rw [not_not] at h
            simp [h]
  | collapseAll =>
    cases s <;> simp [step, observes]

/-- While a scope is already notified, a collapse-free run adds no
emissions for it. -/
theorem countScope_run_notified (s : Scope) :
    ∀ (tr : List Event) (st : PState), noCollapse tr → notifiedFor s st = true →
      countScope s (run st tr).emissions = countScope s st.emissions := by
  intro tr
  induction tr with
  | nil => intro st _ _; rfl
  | cons e rest ih =>
    intro st hnc hnt
    have hne : e ≠ Event.collapseAll := hnc e (List.mem_cons_self e rest)
    have hnc' : noCollapse rest := fun x hx => hnc x (List.mem_cons_of_mem e hx)
    simp only [run]
    rw [ih (step st e) hnc' (by rw [notifiedFor_step s st e hne, hnt]; rfl)]
    rw [countScope_step,
      if_neg (fun hc => Bool.noConfusion (hnt.symm.trans hc.2))]
    rfl

/-- From an unnotified state, a collapse-free run emits for the scope once
if some event observes an error for it, and never otherwise. -/
theorem countScope_run (s : Scope) :
    ∀ (tr : List Event) (st : PState), noCollapse tr → notifiedFor s st = false →
      countScope s (run st tr).emissions =
        countScope s st.emissions + (if hasObs s st tr = true then 1 else 0) := by
  intro tr
  induction tr with
  | nil => intro st _ _; simp [run, hasObs]
  | cons e rest ih =>
    intro st hnc hnt
    have hne : e ≠ Event.collapseAll := hnc e (List.mem_cons_self e rest)
    have hnc' : noCollapse rest := fun x hx => hnc x (List.mem_cons_of_mem e hx)
    simp only [run, hasObs]
    by_cases hobs : observes s st e = true
    · rw [countScope_run_notified s rest (step st e) hnc'
        (by rw [notifiedFor_step s st e hne, hnt, hobs]; rfl)]
      rw [countScope_step, if_pos ⟨hobs, hnt⟩]
      simp [hobs]
    · have hobs' : observes s st e = false := by
        cases hoc : observes s st e with
        | false => rfl
        | true => exact absurd hoc hobs
      rw [ih (step st e) hnc' (by rw [notifiedFor_step s st e hne, hnt, hobs']; rfl)]
      rw [countScope_step, if_neg (fun hc => hobs hc.1)]
      simp [hobs']

/-- C4: over any sequence of polls and expansions (no collapse-all), each
scope's failure notification is emitted exactly once if some poll or
expansion merge observes an error file in the scope — namely at the first
such observation, the dedup guard silencing every later one — and never
otherwise; in particular it is emitted at most once even when several
overlapping polls of the scope each observe error files. -/
theorem errorToast_at_most_once (tr : List Event) (hnc : noCollapse tr) (s : Scope) :
    countScope s (run initState tr).emissions =
      (if hasObs s initState tr = true then 1 else 0) := by
  have h0 : notifiedFor s initState = false := by
    cases s <;> simp [notifiedFor, initState]
  rw [countScope_run s tr initState hnc h0]
  simp [initState, countScope]

/-- C4 witness: a trace whose two events both observe an error in scope `F`
still yields exactly one emission for `F`. -/
theorem errorToast_at_most_once_witness :
    noCollapse exTrace ∧
    countScope (Scope.folder "F") (run initState exTrace).emissions = 1 :=
  ⟨by decide,
    (errorToast_at_most_once exTrace (by decide) (Scope.folder "F")).trans (by decide)⟩

/-! ## C10: collapse-all resets -/

/-- C10: `collapseAllFolders` empties the expanded-folder set, the
loading-folder set and the error-toast dedup set (and nothing else); as a
consequence, a scope that had already emitted its one failure notification
becomes eligible again — an expansion of the scope observing an error after
a collapse-all emits one more notification. -/
theorem collapseAllFolders_resets :
    (∀ st : PState, step st Event.collapseAll =
      { st with expandedFolders := [], loadingFolders := [], errorToastShown := [] })
    ∧ (∀ (st : PState) (folderId : String) (driveFiles : List FileItem) (m : StatusMap),
        driveFiles ≠ [] →
        ((driveFiles.map (mergeFile m)).any fun f =>
          decide (f.type = "file") && decide (f.status = some Status.error)) = true →
        countScope (Scope.folder folderId)
          (run st [Event.collapseAll,
            Event.toggle folderId driveFiles m true]).emissions =
          countScope (Scope.folder folderId) st.emissions + 1) := by
  constructor
  · intro st
    rfl
  · intro st folderId driveFiles m hdf herr
    have hupd : (updateCachedFilesWithStatus
        (setC folderId driveFiles st.cache) folderId m).hasErrors = true := by
      unfold updateCachedFilesWithStatus
      simp only [getC_setC]
      exact herr
    have hobs : observes (Scope.folder folderId) (step st Event.collapseAll)
        (Event.toggle folderId driveFiles m true) = true := by
      simp only [observes]
      simp [hupd, hdf, step]
    have hnotif : notifiedFor (Scope.folder folderId) (step st Event.collapseAll) = false := by
      simp [notifiedFor, step]
    simp only [run]
    rw [countScope_step, if_pos ⟨hobs, hnotif⟩]
    rfl

/-- C10 witness: with scope `F` expanded and already notified, a
collapse-all followed by an error-observing expansion of `F` re-emits,
bringing `F`'s total emission count to two. -/
theorem collapseAllFolders_resets_witness :
    (([exErrFile] : List FileItem) ≠ []
      ∧ ((([exErrFile] : List FileItem).map (mergeFile [])).any fun f =>
          decide (f.type = "file") && decide (f.status = some Status.error)) = true)
    ∧ step exPrev Event.collapseAll =
        { exPrev with expandedFolders := [], loadingFolders := [], errorToastShown := [] }
    ∧ countScope (Scope.folder "F")
        (run exPrev [Event.collapseAll,
          Event.toggle "F" [exErrFile] [] true]).emissions =
        countScope (Scope.folder "F") exPrev.emissions + 1 :=
  ⟨⟨by decide, by decide⟩, collapseAllFolders_resets.1 exPrev,
    collapseAllFolders_resets.2 exPrev "F" [exErrFile] [] (by decide) (by decide)⟩

end StackAI
